import Mathlib

/-!
Shallow embedding of the CASBench lexer (`src/casbench/lexer.py`) and its
error type (`src/casbench/exception.py`).

Conventions of the embedding:
* Python strings are modelled as `List Char`; the lexer walks the list.
* Python's Unicode character predicates are modelled on their ASCII
  fragment, which is the whole alphabet of the benchmark grammar:
  `str.isalpha` becomes `Char.isAlpha`, `str.isdigit` / `str.isnumeric`
  become `Char.isDigit`, and the single-character `str.isidentifier`
  test used in the identifier loop accepts exactly letters and the
  underscore (a lone digit is NOT a valid Python identifier, so
  `"1".isidentifier()` is false).
* Python `int(...)` on a digit run is exact integer parsing; Python
  `float(...)` is modelled by exact decimal-to-rational parsing
  (`Rat`), which agrees with IEEE semantics on the exactly
  representable decimals the claims mention (`10.00`, `0.0`, ...).
* A raised `InvalidLexemeError` becomes `Except.error (.invalidLexeme ...)`
  carrying the same four fields the message interpolates (offending
  character, line, column, absolute index).  A Python `IndexError`
  escaping from `self.source[index + 1]` is a distinct error value
  `LexError.indexError`, since it is observably not an
  `InvalidLexemeError`.
* The `while` loop of `Lexer._tokenize` is written with explicit fuel so
  that the definition is structurally recursive and kernel-computable;
  `LexError.outOfFuel` is an artifact of the embedding and is unreachable
  for the canonical fuel `source.length + 1` (every loop iteration
  consumes at least one character).
* `functools.cached_property` is modelled as an explicit optional memo
  field on the `Lexer` structure, following the behaviour of the Python
  decorator: the value is stored on first successful computation and an
  exception is never cached.
-/

namespace Casbench

/-- The `TokenType` enumeration of `lexer.py`. -/
inductive TokenType
  | identifier
  | integer_literal
  | float_literal
  | left_parenthesis
  | right_parenthesis
  | comma
  | equal_equal
  | end_of_file
deriving DecidableEq

/-- The value stored in a token's `literal` field: a parsed integer or a
parsed floating-point value (modelled exactly as a rational). -/
inductive Literal
  | int (value : Int)
  | float (value : Rat)
deriving DecidableEq

/-- The `Token` dataclass of `lexer.py`.  `lexeme` is the matched source
text (absent for the end-of-file token) and `literal` defaults to none. -/
structure Token where
  token_type : TokenType
  lexeme : Option (List Char)
  line : Nat
  column : Nat
  literal : Option Literal := none
deriving DecidableEq

/-- Failure of the scan.  `invalidLexeme` is `InvalidLexemeError` with the
four values interpolated into its message by the `invalid_lexeme` helper;
`indexError` is a Python `IndexError` escaping from the unguarded read
`self.source[index + 1]`; `outOfFuel` is unreachable for the canonical
fuel and exists only to make the loop structurally recursive. -/
inductive LexError
  | invalidLexeme (current : Char) (line : Nat) (column : Nat) (index : Nat)
  | indexError
  | outOfFuel
deriving DecidableEq

/-- Decidable equality for scan results, so concrete runs of the lexer
can be checked by `decide`. -/
instance {ε α : Type} [DecidableEq ε] [DecidableEq α] : DecidableEq (Except ε α) := fun a b =>
  match a, b with
  | .ok x, .ok y =>
    if h : x = y then isTrue (by rw [h]) else isFalse fun hc => h (by injection hc)
  | .error x, .error y =>
    if h : x = y then isTrue (by rw [h]) else isFalse fun hc => h (by injection hc)
  | .ok _, .error _ => isFalse fun hc => by injection hc
  | .error _, .ok _ => isFalse fun hc => by injection hc

/-- ASCII model of Python `str.isalpha` on one character. -/
def pyIsAlpha (c : Char) : Bool := c.isAlpha

/-- ASCII model of Python `str.isdigit` on one character. -/
def pyIsDigit (c : Char) : Bool := c.isDigit

/-- ASCII model of Python `str.isnumeric` on one character. -/
def pyIsNumeric (c : Char) : Bool := c.isDigit

/-- Python `str.isidentifier` applied to a SINGLE character, as in
`peek.isidentifier()` of the identifier loop: true exactly for letters
and the underscore.  A digit alone is not a valid identifier, so this is
false on digits (ASCII model). -/
def pyIsIdentChar (c : Char) : Bool := c.isAlpha || c = '_'

/-- The identifier continuation loop of `Lexer._tokenize`: consume
characters while `peek.isidentifier()` holds, returning the consumed run
and the unconsumed rest. -/
def takeIdent : List Char → List Char × List Char
  | [] => ([], [])
  | c :: cs =>
    if pyIsIdentChar c then
      let p := takeIdent cs
      (c :: p.1, p.2)
    else ([], c :: cs)

/-- The numeric-run loop of `Lexer._tokenize`, tracking the
`has_decimal_point` flag.  Returns `none` when the loop calls
`invalid_lexeme` (second decimal point, or a letter or underscore inside
the run); otherwise returns the consumed run, the final flag, and the
unconsumed rest. -/
def numRun : Bool → List Char → Option (List Char × Bool × List Char)
  | hdp, [] => some ([], hdp, [])
  | hdp, c :: cs =>
    if c = '.' then
      if hdp then none
      else (numRun true cs).map fun p => (c :: p.1, p.2.1, p.2.2)
    else if pyIsAlpha c || c = '_' then none
    else if pyIsNumeric c then
      (numRun hdp cs).map fun p => (c :: p.1, p.2.1, p.2.2)
    else some ([], hdp, c :: cs)

/-- Value of a run of ASCII decimal digits, most significant first. -/
def digitsVal (cs : List Char) : Nat :=
  cs.foldl (fun acc c => 10 * acc + (c.toNat - 48)) 0

/-- Python `int(...)` on the digit run of an integer literal. -/
def pyInt (cs : List Char) : Int := (digitsVal cs : Int)

/-- Python `float(...)` on a numeric run, modelled as exact
decimal-to-rational parsing: the value of `ip.frac` is the integer made
of all digits divided by ten to the number of fractional digits.  This
agrees with IEEE `float` on the exactly representable decimals the
spec's examples use. -/
def pyFloat (cs : List Char) : Rat :=
  let ip := cs.takeWhile fun c => c ≠ '.'
  match cs.dropWhile fun c => c ≠ '.' with
  | [] => Rat.divInt (digitsVal ip) 1
  | _ :: frac =>
    Rat.divInt (digitsVal ip * 10 ^ frac.length + digitsVal frac) (10 ^ frac.length)

/-- The end-of-file token appended after the scan loop terminates. -/
def eofToken (line : Nat) (column : Nat) : Token :=
  { token_type := .end_of_file, lexeme := none, line := line, column := column,
    literal := none }

/-- The `while index < len(self.source)` loop of `Lexer._tokenize`,
dispatching on the current character exactly as the Python `if` chain
does, with `line`, `column` and `index` threaded as in the source and
the remaining characters `self.source[index:]` passed as a list.  The
first argument is fuel making the recursion structural; one unit is
spent per loop iteration, and each iteration consumes at least one
character, so `rest.length + 1` fuel always suffices. -/
def tokenizeAux : Nat → Nat → Nat → Nat → List Char → Except LexError (List Token)
  | 0, _, _, _, _ => .error .outOfFuel
  | _ + 1, line, column, _, [] => .ok [eofToken line column]
  | fuel + 1, line, column, index, current :: cs =>
    if current = ' ' then
      tokenizeAux fuel line (column + 1) (index + 1) cs
    else if pyIsAlpha current then
      let p := takeIdent cs
      let length := 1 + p.1.length
      (tokenizeAux fuel line (column + length) (index + length) p.2).map fun ts =>
        { token_type := .identifier, lexeme := some (current :: p.1),
          line := line, column := column, literal := none } :: ts
    else if pyIsDigit current then
      match numRun false cs with
      | none => .error (.invalidLexeme current line column index)
      | some p =>
        let length := 1 + p.1.length
        let lit : Literal :=
          if p.2.1 then .float (pyFloat (current :: p.1)) else .int (pyInt (current :: p.1))
        let tt : TokenType := if p.2.1 then .float_literal else .integer_literal
        (tokenizeAux fuel line (column + length) (index + length) p.2.2).map fun ts =>
          { token_type := tt, lexeme := some (current :: p.1),
            line := line, column := column, literal := some lit } :: ts
    else if current = '(' then
      (tokenizeAux fuel line (column + 1) (index + 1) cs).map fun ts =>
        { token_type := .left_parenthesis, lexeme := some ['('],
          line := line, column := column, literal := none } :: ts
    else if current = ')' then
      (tokenizeAux fuel line (column + 1) (index + 1) cs).map fun ts =>
        { token_type := .right_parenthesis, lexeme := some [')'],
          line := line, column := column, literal := none } :: ts
    else if current = ',' then
      (tokenizeAux fuel line (column + 1) (index + 1) cs).map fun ts =>
        { token_type := .comma, lexeme := some [','],
          line := line, column := column, literal := none } :: ts
    else if current = '=' then
      match cs with
      | [] => .error .indexError
      | c2 :: cs2 =>
        if c2 = '=' then
          (tokenizeAux fuel line (column + 2) (index + 2) cs2).map fun ts =>
            { token_type := .equal_equal, lexeme := some ['=', '='],
              line := line, column := column, literal := none } :: ts
        else .error (.invalidLexeme current line column index)
    else .error (.invalidLexeme current line column index)

/-- `Lexer._tokenize`: run the scan loop from line 0, column 0, index 0
over the whole source, with enough fuel for every iteration. -/
def tokenize (source : List Char) : Except LexError (List Token) :=
  tokenizeAux (source.length + 1) 0 0 0 source

/-- The `Lexer` class: it owns the source and, mirroring
`functools.cached_property`, an explicit memo field for the `tokens`
property, empty until the first successful computation. -/
structure Lexer where
  source : List Char
  tokensCache : Option (List Token) := none
deriving DecidableEq

/-- The `tokens` cached property.  Returns the result, the lexer after
the access (its cache possibly filled), and the number of times the scan
`_tokenize` ran during this access (0 on a cache hit, 1 on a miss).
As with `functools.cached_property`, a raised error is not cached. -/
def Lexer.tokensWithCount (l : Lexer) : Except LexError (List Token) × Lexer × Nat :=
  match l.tokensCache with
  | some ts => (.ok ts, l, 0)
  | none =>
    match tokenize l.source with
    | .ok ts => (.ok ts, { source := l.source, tokensCache := some ts }, 1)
    | .error e => (.error e, l, 1)

/-- The observable value of the `tokens` property together with the
lexer after the access. -/
def Lexer.tokens (l : Lexer) : Except LexError (List Token) × Lexer :=
  (l.tokensWithCount.1, l.tokensWithCount.2.1)

/-- Number of source characters a token consumed: the length of its
lexeme, 0 for the end-of-file token. -/
def consumedLen (t : Token) : Nat :=
  match t.lexeme with
  | some l => l.length
  | none => 0

/-- Rebuild source text from a token list, starting from cursor column
`c`: before each token, reinsert one space per column skipped between
the cursor and the token's column, then the token's lexeme (nothing for
the end-of-file token, whose column still forces the trailing spaces).
Returns `none` when a token's column is behind the cursor. -/
def reconstructFrom : Nat → List Token → Option (List Char)
  | _, [] => some []
  | c, t :: ts =>
    if c ≤ t.column then
      (reconstructFrom (t.column + consumedLen t) ts).map fun l =>
        List.replicate (t.column - c) ' ' ++ t.lexeme.getD [] ++ l
    else none

/-- Rebuild the whole source from a token list (cursor starts at 0). -/
def reconstruct (ts : List Token) : Option (List Char) :=
  reconstructFrom 0 ts

/-- Per-token wellformedness: numeric tokens carry exactly the parsed
value of their lexeme, non-numeric tokens carry no literal, and the
lexeme is absent exactly on the end-of-file token. -/
def TokWF (t : Token) : Prop :=
  (t.token_type = .float_literal →
    ∃ lex, t.lexeme = some lex ∧ t.literal = some (.float (pyFloat lex))) ∧
  (t.token_type = .integer_literal →
    ∃ lex, t.lexeme = some lex ∧ t.literal = some (.int (pyInt lex))) ∧
  (t.token_type ≠ .float_literal → t.token_type ≠ .integer_literal →
    t.literal = none) ∧
  (t.token_type = .end_of_file ↔ t.lexeme = none)

/-- Everything a successful scan starting at column `c` over remaining
characters `cs` guarantees about its output `ts`: the output rebuilds
`cs`, ends in exactly one end-of-file token at column `c + cs.length`,
every token is on line `line`, and every token is wellformed. -/
def ScanOk (line : Nat) (c : Nat) (cs : List Char) (ts : List Token) : Prop :=
  reconstructFrom c ts = some cs ∧
  (∃ ts₀, ts = ts₀ ++ [eofToken line (c + cs.length)] ∧
    ∀ t ∈ ts₀, t.token_type ≠ TokenType.end_of_file) ∧
  (∀ t ∈ ts, t.line = line) ∧
  (∀ t ∈ ts, TokWF t)

/-- Column-accounting relation between adjacent tokens of a scan whose
output rebuilds to `l` from cursor `c`: the later token's column is the
earlier token's column plus its consumed length plus some number of
skipped spaces, each of which is a space character of `l`. -/
def Adj (c : Nat) (l : List Char) (t u : Token) : Prop :=
  c ≤ t.column ∧
  ∃ k, u.column = t.column + consumedLen t + k ∧
    ∀ j < k, l[t.column + consumedLen t + j - c]? = some ' '

theorem map_eq_ok {ε α β : Type} (e : Except ε α) (f : α → β) (b : β) :
    e.map f = .ok b ↔ ∃ a, e = .ok a ∧ f a = b := by
  cases e <;> simp [Except.map]

theorem takeIdent_append (cs : List Char) : (takeIdent cs).1 ++ (takeIdent cs).2 = cs := by
  induction cs with
  | nil => rfl
  | cons c cs ih =>
    by_cases h : pyIsIdentChar c = true <;> simp [takeIdent, h, ih]

theorem takeIdent_full (cs : List Char) (h : ∀ x ∈ cs, pyIsIdentChar x = true) :
    takeIdent cs = (cs, []) := by
  induction cs with
  | nil => rfl
  | cons c cs ih =>
    have hc : pyIsIdentChar c = true := h c (by simp)
    have hrest := ih fun x hx => h x (by simp [hx])
    simp [takeIdent, hc, hrest]

theorem numRun_append (cs : List Char) : ∀ hdp p, numRun hdp cs = some p →
    p.1 ++ p.2.2 = cs := by
  induction cs with
  | nil =>
    intro hdp p h
    simp only [numRun, Option.some.injEq] at h
    rw [← h]
    rfl
  | cons c cs ih =>
    intro hdp p h
    simp only [numRun] at h
    split at h
    · split at h
      · exact absurd h (by simp)
      · rw [Option.map_eq_some'] at h
        obtain ⟨q, hq, hpq⟩ := h
        rw [← hpq]
        simp [ih true q hq]
    · split at h
      · exact absurd h (by simp)
      · split at h
        · rw [Option.map_eq_some'] at h
          obtain ⟨q, hq, hpq⟩ := h
          rw [← hpq]
          simp [ih hdp q hq]
        · simp only [Option.some.injEq] at h
          rw [← h]
          rfl

theorem consumedLen_some (t : Token) (b : List Char) (h : t.lexeme = some b) :
    consumedLen t = b.length := by
  simp [consumedLen, h]

theorem reconstructFrom_shift (c : Nat) (t : Token) (ts : List Token) (l : List Char)
    (h : reconstructFrom (c + 1) (t :: ts) = some l) :
    reconstructFrom c (t :: ts) = some (' ' :: l) := by
  simp only [reconstructFrom] at h ⊢
  split at h
  · rename_i hle
    rw [Option.map_eq_some'] at h
    obtain ⟨l2, hl2, hl⟩ := h
    rw [if_pos (by omega), Option.map_eq_some']
    refine ⟨l2, hl2, ?_⟩
    rw [← hl]
    have hsub : t.column - c = (t.column - (c + 1)) + 1 := by omega
    rw [hsub, List.replicate_succ]
    simp
  · exact absurd h (by simp)

theorem scanOk_nil (line c : Nat) : ScanOk line c [] [eofToken line c] := by
  refine ⟨?_, ⟨[], by simp, by simp⟩, ?_, ?_⟩
  · simp [reconstructFrom, eofToken, consumedLen]
  · intro t ht
    simp at ht
    simp [ht, eofToken]
  · intro t ht
    simp at ht
    subst ht
    simp [TokWF, eofToken]

theorem scanOk_cons (line c : Nat) (t : Token) (body rest : List Char) (ts : List Token)
    (hcol : t.column = c) (hlex : t.lexeme = some body) (hline : t.line = line)
    (hne : t.token_type ≠ TokenType.end_of_file) (hwf : TokWF t)
    (h : ScanOk line (c + body.length) rest ts) :
    ScanOk line c (body ++ rest) (t :: ts) := by
  obtain ⟨hrec, ⟨ts₀, hts, heof⟩, hlines, hwfs⟩ := h
  refine ⟨?_, ⟨t :: ts₀, ?_, ?_⟩, ?_, ?_⟩
  · simp only [reconstructFrom, hcol, if_pos (le_refl c)]
    rw [consumedLen_some t body hlex, Option.map_eq_some']
    exact ⟨rest, hrec, by simp [hlex]⟩
  · rw [hts]
    simp [Nat.add_assoc]
  · intro u hu
    rcases List.mem_cons.mp hu with rfl | hu2
    · exact hne
    · exact heof u hu2
  · intro u hu
    rcases List.mem_cons.mp hu with rfl | hu2
    · exact hline
    · exact hlines u hu2
  · intro u hu
    rcases List.mem_cons.mp hu with rfl | hu2
    · exact hwf
    · exact hwfs u hu2

theorem scanOk_space (line c : Nat) (rest : List Char) (ts : List Token)
    (h : ScanOk line (c + 1) rest ts) : ScanOk line c (' ' :: rest) ts := by
  obtain ⟨hrec, ⟨ts₀, hts, heof⟩, hlines, hwfs⟩ := h
  cases ts with
  | nil => exact absurd hts.symm (by simp)
  | cons t ts2 =>
    refine ⟨reconstructFrom_shift c t ts2 rest hrec, ⟨ts₀, ?_, heof⟩, hlines, hwfs⟩
    have hlen : c + 1 + rest.length = c + (' ' :: rest).length := by
      simp [List.length_cons]
      omega
    rw [← hlen]
    exact hts

theorem tokenizeAux_scanOk (fuel : Nat) : ∀ line c i cs ts,
    cs.length < fuel →
    tokenizeAux fuel line c i cs = .ok ts →
    ScanOk line c cs ts := by
  induction fuel with
  | zero =>
    intro line c i cs ts h
    omega
  | succ n ih =>
    intro line c i cs ts hlen h
    cases cs with
    | nil =>
      simp only [tokenizeAux, Except.ok.injEq] at h
      rw [← h]
      exact scanOk_nil line c
    | cons current cs =>
      have hcslen : cs.length < n := by
        simp [List.length_cons] at hlen
        omega
      simp only [tokenizeAux] at h
      split at h
      · rename_i hsp
        subst hsp
        exact scanOk_space line c cs ts (ih line (c + 1) (i + 1) cs ts hcslen h)
      · rename_i hsp
        split at h
        · rename_i hal
          rw [map_eq_ok] at h
          obtain ⟨ts1, hrec, hts⟩ := h
          have happ := takeIdent_append cs
          have hlen2 : (takeIdent cs).2.length < n := by
            have hl := congrArg List.length happ
            simp [List.length_append] at hl
            omega
          have hS := ih line (c + (1 + (takeIdent cs).1.length)) (i + (1 + (takeIdent cs).1.length))
            (takeIdent cs).2 ts1 hlen2 hrec
          have heq : c + (1 + (takeIdent cs).1.length) = c + (current :: (takeIdent cs).1).length := by
            simp [List.length_cons]
            omega
          rw [heq] at hS
          have hfull := scanOk_cons line c
            { token_type := .identifier, lexeme := some (current :: (takeIdent cs).1),
              line := line, column := c, literal := none }
            (current :: (takeIdent cs).1) (takeIdent cs).2 ts1
            rfl rfl rfl (by simp) (by simp [TokWF]) hS
          rw [← hts]
          have hsrc : (current :: (takeIdent cs).1) ++ (takeIdent cs).2 = current :: cs := by
            simp [happ]
          rw [← hsrc]
          exact hfull
        · rename_i hal
          split at h
          · rename_i hdg
            split at h
            · exact absurd h (by simp)
            · rename_i p hnr
              rw [map_eq_ok] at h
              obtain ⟨ts1, hrec, hts⟩ := h
              have happ := numRun_append cs false p hnr
              have hlen2 : p.2.2.length < n := by
                have hl := congrArg List.length happ
                simp [List.length_append] at hl
                omega
              have hS := ih line (c + (1 + p.1.length)) (i + (1 + p.1.length)) p.2.2 ts1 hlen2 hrec
              have heq : c + (1 + p.1.length) = c + (current :: p.1).length := by
                simp [List.length_cons]
                omega
              rw [heq] at hS
              have hfull := scanOk_cons line c
                { token_type := if p.2.1 then TokenType.float_literal else TokenType.integer_literal,
                  lexeme := some (current :: p.1), line := line, column := c,
                  literal := some (if p.2.1 then Literal.float (pyFloat (current :: p.1))
                    else Literal.int (pyInt (current :: p.1))) }
                (current :: p.1) p.2.2 ts1
                rfl rfl rfl (by cases hb : p.2.1 <;> simp [hb])
                (by cases hb : p.2.1 <;> simp [TokWF, hb]) hS
              rw [← hts]
              have hsrc : (current :: p.1) ++ p.2.2 = current :: cs := by
                simp [happ]
              rw [← hsrc]
              exact hfull
          · rename_i hdg
            split at h
            · rename_i hlp
              subst hlp
              rw [map_eq_ok] at h
              obtain ⟨ts1, hrec, hts⟩ := h
              have hS := ih line (c + 1) (i + 1) cs ts1 hcslen hrec
              have heq : c + 1 = c + (['('] : List Char).length := by simp
              rw [heq] at hS
              have hfull := scanOk_cons line c
                { token_type := .left_parenthesis, lexeme := some ['('],
                  line := line, column := c, literal := none }
                ['('] cs ts1 rfl rfl rfl (by simp) (by simp [TokWF]) hS
              rw [← hts]
              exact hfull
            · rename_i hlp
              split at h
              · rename_i hrp
                subst hrp
                rw [map_eq_ok] at h
                obtain ⟨ts1, hrec, hts⟩ := h
                have hS := ih line (c + 1) (i + 1) cs ts1 hcslen hrec
                have heq : c + 1 = c + ([')'] : List Char).length := by simp
                rw [heq] at hS
                have hfull := scanOk_cons line c
                  { token_type := .right_parenthesis, lexeme := some [')'],
                    line := line, column := c, literal := none }
                  [')'] cs ts1 rfl rfl rfl (by simp) (by simp [TokWF]) hS
                rw [← hts]
                exact hfull
              · rename_i hrp
                split at h
                · rename_i hcm
                  subst hcm
                  rw [map_eq_ok] at h
                  obtain ⟨ts1, hrec, hts⟩ := h
                  have hS := ih line (c + 1) (i + 1) cs ts1 hcslen hrec
                  have heq : c + 1 = c + ([','] : List Char).length := by simp
                  rw [heq] at hS
                  have hfull := scanOk_cons line c
                    { token_type := .comma, lexeme := some [','],
                      line := line, column := c, literal := none }
                    [','] cs ts1 rfl rfl rfl (by simp) (by simp [TokWF]) hS
                  rw [← hts]
                  exact hfull
                · rename_i hcm
                  split at h
                  · rename_i heqc
                    subst heqc
                    split at h
                    · exact absurd h (by simp)
                    · rename_i c2 cs2
                      split at h
                      · rename_i hc2
                        subst hc2
                        rw [map_eq_ok] at h
                        obtain ⟨ts1, hrec, hts⟩ := h
                        have hcs2len : cs2.length < n := by
                          simp [List.length_cons] at hcslen
                          omega
                        have hS := ih line (c + 2) (i + 2) cs2 ts1 hcs2len hrec
                        have heq : c + 2 = c + (['=', '='] : List Char).length := by simp
                        rw [heq] at hS
                        have hfull := scanOk_cons line c
                          { token_type := .equal_equal, lexeme := some ['=', '='],
                            line := line, column := c, literal := none }
                          ['=', '='] cs2 ts1 rfl rfl rfl (by simp) (by simp [TokWF]) hS
                        rw [← hts]
                        exact hfull
                      · exact absurd h (by simp)
                  · exact absurd h (by simp)

theorem consumedLen_getD (t : Token) : consumedLen t = (t.lexeme.getD []).length := by
  cases hx : t.lexeme <;> simp [consumedLen, hx]

theorem recon_pos : ∀ (ts : List Token) (c : Nat) (l : List Char),
    reconstructFrom c ts = some l →
    ∀ t ∈ ts, c ≤ t.column ∧
      (l.drop (t.column - c)).take (consumedLen t) = t.lexeme.getD [] := by
  intro ts
  induction ts with
  | nil =>
    intro c l h t ht
    simp at ht
  | cons t ts ih =>
    intro c l h u hu
    simp only [reconstructFrom] at h
    split at h
    · rename_i hle
      rw [Option.map_eq_some'] at h
      obtain ⟨l2, hl2, hl⟩ := h
      rcases List.mem_cons.mp hu with rfl | hu2
      · refine ⟨hle, ?_⟩
        rw [← hl, List.append_assoc, List.drop_left' (by simp), consumedLen_getD]
        exact List.take_left _ _
      · obtain ⟨h1, h2⟩ := ih (t.column + consumedLen t) l2 hl2 u hu2
        refine ⟨by omega, ?_⟩
        rw [← hl]
        have hplen : (List.replicate (t.column - c) ' ' ++ t.lexeme.getD []).length
            = t.column + consumedLen t - c := by
          simp [List.length_append, consumedLen_getD]
          omega
        have hsplit : u.column - c
            = (List.replicate (t.column - c) ' ' ++ t.lexeme.getD []).length
              + (u.column - (t.column + consumedLen t)) := by
          rw [hplen]
          omega
        rw [hsplit, List.drop_append]
        exact h2
    · exact absurd h (by simp)

theorem recon_chain : ∀ (ts : List Token) (c : Nat) (l : List Char),
    reconstructFrom c ts = some l → List.Chain' (Adj c l) ts := by
  intro ts
  induction ts with
  | nil =>
    intro c l h
    simp
  | cons t ts ih =>
    intro c l h
    have hstep := h
    simp only [reconstructFrom] at hstep
    split at hstep
    · rename_i hle
      rw [Option.map_eq_some'] at hstep
      obtain ⟨l2, hl2, hl⟩ := hstep
      have hplen : (List.replicate (t.column - c) ' ' ++ t.lexeme.getD []).length
          = t.column + consumedLen t - c := by
        simp [List.length_append, consumedLen_getD]
        omega
      cases ts with
      | nil => simp
      | cons u ts2 =>
        rw [List.chain'_cons]
        have hucol : t.column + consumedLen t ≤ u.column :=
          (recon_pos (u :: ts2) (t.column + consumedLen t) l2 hl2 u (by simp)).1
        constructor
        · refine ⟨hle, u.column - (t.column + consumedLen t), by omega, ?_⟩
          intro j hj
          rw [← hl]
          have hpos : t.column + consumedLen t + j - c
              = (List.replicate (t.column - c) ' ' ++ t.lexeme.getD []).length + j := by
            rw [hplen]
            omega
          rw [hpos, List.getElem?_append_right (by omega)]
          have hj2 : (List.replicate (t.column - c) ' ' ++ t.lexeme.getD []).length + j
              - (List.replicate (t.column - c) ' ' ++ t.lexeme.getD []).length = j := by
            omega
          rw [hj2]
          have hl2step := hl2
          simp only [reconstructFrom] at hl2step
          rw [if_pos hucol, Option.map_eq_some'] at hl2step
          obtain ⟨l3, _, hl3⟩ := hl2step
          rw [← hl3, List.append_assoc]
          have hjlt : j < (List.replicate (u.column - (t.column + consumedLen t)) ' ').length := by
            simp
            omega
          rw [List.getElem?_append_left hjlt]
          simp [List.getElem?_replicate]
          omega
        · have hchain := ih (t.column + consumedLen t) l2 hl2
          refine List.Chain'.imp ?_ hchain
          intro a b hab
          obtain ⟨hac, k, hk, hsp⟩ := hab
          refine ⟨by omega, k, hk, ?_⟩
          intro j hj
          have hsp2 := hsp j hj
          rw [← hl]
          have hpos : a.column + consumedLen a + j - c
              = (List.replicate (t.column - c) ' ' ++ t.lexeme.getD []).length
                + (a.column + consumedLen a + j - (t.column + consumedLen t)) := by
            rw [hplen]
            omega
          rw [hpos, List.getElem?_append_right (by omega)]
          have hj2 : (List.replicate (t.column - c) ' ' ++ t.lexeme.getD []).length
              + (a.column + consumedLen a + j - (t.column + consumedLen t))
              - (List.replicate (t.column - c) ' ' ++ t.lexeme.getD []).length
              = a.column + consumedLen a + j - (t.column + consumedLen t) := by
            omega
          rw [hj2]
          exact hsp2
    · exact absurd hstep (by simp)

theorem digit_not_alpha (c : Char) (h : pyIsDigit c = true) : pyIsAlpha c = false := by
  simp only [pyIsDigit, pyIsAlpha] at *
  simp [Char.isDigit, Char.isAlpha, Char.isUpper, Char.isLower, decide_eq_true_eq,
    UInt32.le_def, BitVec.le_def] at *
  constructor <;> intro h1 <;> omega

theorem digit_ne_dot (c : Char) (h : pyIsDigit c = true) : c ≠ '.' := by
  intro hc
  subst hc
  exact absurd h (by decide)

theorem digit_ne_underscore (c : Char) (h : pyIsDigit c = true) : c ≠ '_' := by
  intro hc
  subst hc
  exact absurd h (by decide)

theorem digit_ne_space (c : Char) (h : pyIsDigit c = true) : c ≠ ' ' := by
  intro hc
  subst hc
  exact absurd h (by decide)

theorem numRun_digits (pre : List Char) : ∀ hdp z, (∀ x ∈ pre, pyIsDigit x = true) →
    numRun hdp (pre ++ z) = (numRun hdp z).map fun p => (pre ++ p.1, p.2.1, p.2.2) := by
  induction pre with
  | nil =>
    intro hdp z h
    cases hq : numRun hdp z <;> simp [hq]
  | cons d pre ih =>
    intro hdp z h
    have hd := h d (by simp)
    have hb : (pyIsAlpha d || decide (d = '_')) = false := by
      simp [digit_not_alpha d hd, digit_ne_underscore d hd]
    have hn : pyIsNumeric d = true := hd
    rw [List.cons_append]
    simp only [numRun, if_neg (digit_ne_dot d hd), hb, Bool.false_eq_true, if_false, hn,
      if_pos rfl, if_true, ih hdp z fun x hx => h x (by simp [hx])]
    cases hq : numRun hdp z <;> simp [hq]

theorem numRun_two_dots (pre mid post : List Char)
    (hpre : ∀ x ∈ pre, pyIsDigit x = true) (hmid : ∀ x ∈ mid, pyIsDigit x = true) :
    numRun false (pre ++ '.' :: (mid ++ '.' :: post)) = none := by
  rw [numRun_digits pre false _ hpre]
  have h1 : numRun false ('.' :: (mid ++ '.' :: post))
      = (numRun true (mid ++ '.' :: post)).map fun p => ('.' :: p.1, p.2.1, p.2.2) := by
    simp [numRun]
  have h2 := numRun_digits mid true ('.' :: post) hmid
  have h3 : numRun true ('.' :: post) = none := by simp [numRun]
  rw [h1, h2, h3]
  simp

theorem tokenize_scanOk (src : List Char) (ts : List Token) (h : tokenize src = .ok ts) :
    ScanOk 0 0 src ts :=
  tokenizeAux_scanOk (src.length + 1) 0 0 0 src ts (by omega) h

/-- C1 (code bug): a source whose final character is a lone `=` does NOT
raise `InvalidLexemeError`: the unguarded lookahead `self.source[index + 1]`
reads past the end of the source and a Python `IndexError` escapes
instead, both when the `=` is the whole source and when it follows other
tokens. -/
theorem lone_equals_at_end_raises_index_error :
    tokenize ['='] = .error .indexError ∧
    tokenize ['x', ' ', '='] = .error .indexError ∧
    LexError.indexError ≠ .invalidLexeme '=' 0 0 0 := by
  refine ⟨by decide, by decide, by decide⟩

/-- C2 (counterexample): the source `"x1"` — an alphabetic character
followed by an alphanumeric run — is NOT lexed as the single identifier
`"x1"`: the single-character `isidentifier` test rejects the digit, so
the scan emits identifier `"x"` and then the integer literal `1`. -/
theorem identifier_with_digit_splits :
    tokenize ['x', '1'] = .ok
      [{ token_type := .identifier, lexeme := some ['x'], line := 0, column := 0,
         literal := none },
       { token_type := .integer_literal, lexeme := some ['1'], line := 0, column := 1,
         literal := some (.int 1) },
       eofToken 0 2] ∧
    (['x'] : List Char) ≠ ['x', '1'] := by
  refine ⟨by decide, by decide⟩

/-- C2 (amended): for every source consisting of an alphabetic character
followed by any run of alphabetic-or-underscore characters, the lexer
consumes the whole maximal run as a single identifier token whose lexeme
is exactly the consumed text; digits are not identifier-continuation
characters and end the run. -/
theorem identifier_run_alpha_underscore (a : Char) (cs : List Char)
    (ha : pyIsAlpha a = true) (hcs : ∀ x ∈ cs, pyIsIdentChar x = true) :
    tokenize (a :: cs) = .ok
      [{ token_type := .identifier, lexeme := some (a :: cs), line := 0, column := 0,
         literal := none },
       eofToken 0 (cs.length + 1)] := by
  have hsp : ¬(a = ' ') := by
    intro hx
    subst hx
    exact absurd ha (by decide)
  have hful := takeIdent_full cs hcs
  simp only [tokenize, List.length_cons, tokenizeAux, if_neg hsp, ha, if_pos rfl, if_true,
    hful, Except.map]
  simp [eofToken, Nat.add_comm]

/-- C2 witness: the source `"sin"` lexes to a single identifier token
with lexeme `"sin"` followed by end-of-file. -/
theorem identifier_run_alpha_underscore_witness :
    tokenize ['s', 'i', 'n'] = .ok
      [{ token_type := .identifier, lexeme := some ['s', 'i', 'n'], line := 0, column := 0,
         literal := none },
       eofToken 0 3] :=
  identifier_run_alpha_underscore 's' ['i', 'n'] (by decide) (by decide)

/-- C3 (code bug): not every failure escapes as `InvalidLexemeError`:
on the source `"a="` the scan raises a Python `IndexError` (modelled by
`LexError.indexError`), which is not an `InvalidLexemeError`, so the
claimed dichotomy (complete token stream or `InvalidLexemeError`) fails. -/
theorem index_error_escapes_scan :
    tokenize ['a', '='] = .error .indexError := by
  decide

/-- C4: for every source string that lexes successfully, the token
sequence's concatenated lexemes, with the skipped spaces reinserted at
their original positions, reconstruct the original source exactly, and
the final token of the sequence is the end-of-file token. -/
theorem tokens_reconstruct_source (src : List Char) (ts : List Token)
    (h : tokenize src = .ok ts) :
    reconstruct ts = some src ∧
    ∃ ts₀, ts = ts₀ ++ [eofToken 0 src.length] := by
  obtain ⟨hrec, ⟨ts₀, hts, _⟩, _, _⟩ := tokenize_scanOk src ts h
  exact ⟨hrec, ⟨ts₀, by simpa using hts⟩⟩

/-- C4 witness: the source `" , "` (with leading and trailing spaces)
reconstructs from its token list, which ends in the end-of-file token. -/
theorem tokens_reconstruct_source_witness :
    reconstruct
      [{ token_type := .comma, lexeme := some [','], line := 0, column := 1,
         literal := none },
       eofToken 0 3] = some [' ', ',', ' '] ∧
    ∃ ts₀,
      ([{ token_type := .comma, lexeme := some [','], line := 0, column := 1,
          literal := none },
        eofToken 0 3] : List Token) = ts₀ ++ [eofToken 0 3] :=
  tokens_reconstruct_source [' ', ',', ' '] _ (by decide)

/-- C5: for a source that lexes successfully, the first request of the
`tokens` cached property runs the scan exactly once and stores the
result, and a second request returns the identical value and lexer state
while running the scan zero further times. -/
theorem tokens_cached_and_idempotent (src : List Char) (ts : List Token)
    (h : tokenize src = .ok ts) :
    (Lexer.mk src none).tokensWithCount = (.ok ts, Lexer.mk src (some ts), 1) ∧
    (Lexer.mk src (some ts)).tokensWithCount = (.ok ts, Lexer.mk src (some ts), 0) := by
  constructor
  · simp [Lexer.tokensWithCount, h]
  · simp [Lexer.tokensWithCount]

/-- C5 witness: on the source `"f"`, the first access scans once and
caches, and the second access returns the same result without scanning. -/
theorem tokens_cached_and_idempotent_witness :
    (Lexer.mk ['f'] none).tokensWithCount
      = (.ok [⟨.identifier, some ['f'], 0, 0, none⟩, eofToken 0 1],
         Lexer.mk ['f'] (some [⟨.identifier, some ['f'], 0, 0, none⟩, eofToken 0 1]), 1) ∧
    (Lexer.mk ['f'] (some [⟨.identifier, some ['f'], 0, 0, none⟩, eofToken 0 1])).tokensWithCount
      = (.ok [⟨.identifier, some ['f'], 0, 0, none⟩, eofToken 0 1],
         Lexer.mk ['f'] (some [⟨.identifier, some ['f'], 0, 0, none⟩, eofToken 0 1]), 0) :=
  tokens_cached_and_idempotent ['f'] _ (by decide)

/-- C6: for every successful scan, along the token list each later
token's column equals the earlier token's column plus the earlier token's
consumed character length plus one for each skipped space, and each
skipped position holds a space character of the source. -/
theorem column_accounting (src : List Char) (ts : List Token)
    (h : tokenize src = .ok ts) :
    List.Chain' (fun t u => ∃ k, u.column = t.column + consumedLen t + k ∧
      ∀ j < k, src[t.column + consumedLen t + j]? = some ' ') ts := by
  obtain ⟨hrec, _, _, _⟩ := tokenize_scanOk src ts h
  refine List.Chain'.imp ?_ (recon_chain ts 0 src hrec)
  intro a b hab
  obtain ⟨_, k, hk, hsp⟩ := hab
  refine ⟨k, hk, fun j hj => ?_⟩
  simpa using hsp j hj

/-- C6 witness: on the source `"a ,"`, the comma's column 2 is the
identifier's column 0 plus its length 1 plus one skipped space at
position 1, and the end-of-file column 3 follows the comma directly. -/
theorem column_accounting_witness :
    List.Chain' (fun t u => ∃ k, u.column = t.column + consumedLen t + k ∧
      ∀ j < k, (['a', ' ', ','] : List Char)[t.column + consumedLen t + j]? = some ' ')
      [{ token_type := .identifier, lexeme := some ['a'], line := 0, column := 0,
         literal := none },
       { token_type := .comma, lexeme := some [','], line := 0, column := 2,
         literal := none },
       eofToken 0 3] :=
  column_accounting ['a', ' ', ','] _ (by decide)

/-- C7: every float token of a successful scan carries as literal the
parsed value of its lexeme and every integer token the parsed integer of
its lexeme; concretely `"10.00"` lexes to a single float token with
lexeme `"10.00"` and literal value 10, and `"99"` to an integer token
with literal 99, the lexemes preserving the raw text verbatim. -/
theorem numeric_literal_fidelity :
    (∀ src ts, tokenize src = .ok ts → ∀ t ∈ ts,
      (t.token_type = TokenType.float_literal →
        ∃ lex, t.lexeme = some lex ∧ t.literal = some (.float (pyFloat lex))) ∧
      (t.token_type = TokenType.integer_literal →
        ∃ lex, t.lexeme = some lex ∧ t.literal = some (.int (pyInt lex)))) ∧
    tokenize ['1', '0', '.', '0', '0'] = .ok
      [{ token_type := .float_literal, lexeme := some ['1', '0', '.', '0', '0'],
         line := 0, column := 0, literal := some (.float 10) },
       eofToken 0 5] ∧
    tokenize ['9', '9'] = .ok
      [{ token_type := .integer_literal, lexeme := some ['9', '9'],
         line := 0, column := 0, literal := some (.int 99) },
       eofToken 0 2] := by
  refine ⟨?_, by decide, by decide⟩
  intro src ts h t ht
  obtain ⟨_, _, _, hwf⟩ := tokenize_scanOk src ts h
  obtain ⟨h1, h2, _, _⟩ := hwf t ht
  exact ⟨h1, h2⟩

/-- C7 witness: the float token produced for `"1.5"` carries the parsed
value of its own lexeme. -/
theorem numeric_literal_fidelity_witness :
    ∃ lex, (some ['1', '.', '5'] : Option (List Char)) = some lex ∧
      (some (Literal.float (pyFloat ['1', '.', '5'])) : Option Literal)
        = some (.float (pyFloat lex)) :=
  ((numeric_literal_fidelity.1 ['1', '.', '5']
    [{ token_type := .float_literal, lexeme := some ['1', '.', '5'], line := 0, column := 0,
       literal := some (.float (pyFloat ['1', '.', '5'])) },
     eofToken 0 3]
    (by decide)
    { token_type := .float_literal, lexeme := some ['1', '.', '5'], line := 0, column := 0,
      literal := some (.float (pyFloat ['1', '.', '5'])) }
    (by simp)).1 rfl)

/-- C8: the sources `"0.0.0"`, `"100_000"` and `"_"` each raise
`InvalidLexemeError`, and in each failing case the lexer retains no
token list: the cached-property access returns the error, leaves the
cache empty, and produces no output. -/
theorem malformed_inputs_raise_invalid_lexeme :
    tokenize ['0', '.', '0', '.', '0'] = .error (.invalidLexeme '0' 0 0 0) ∧
    tokenize ['1', '0', '0', '_', '0', '0', '0'] = .error (.invalidLexeme '1' 0 0 0) ∧
    tokenize ['_'] = .error (.invalidLexeme '_' 0 0 0) ∧
    (Lexer.mk ['0', '.', '0', '.', '0'] none).tokensWithCount
      = (.error (.invalidLexeme '0' 0 0 0), Lexer.mk ['0', '.', '0', '.', '0'] none, 1) ∧
    (Lexer.mk ['1', '0', '0', '_', '0', '0', '0'] none).tokensWithCount
      = (.error (.invalidLexeme '1' 0 0 0),
         Lexer.mk ['1', '0', '0', '_', '0', '0', '0'] none, 1) ∧
    (Lexer.mk ['_'] none).tokensWithCount
      = (.error (.invalidLexeme '_' 0 0 0), Lexer.mk ['_'] none, 1) := by
  refine ⟨by decide, by decide, by decide, by decide, by decide, by decide⟩

/-- C9: whenever a numeric run starting with digit `d` at column `c` and
index `i` contains a second decimal point (digits, a dot, digits, then a
second dot), the scan fails with an `InvalidLexemeError` reporting the
run's first character `d`, its line, its column `c` and its index `i` —
the position of the start of the run, not of the offending dot. -/
theorem second_dot_error_reports_run_start (fuel line c i : Nat) (d : Char)
    (pre mid post : List Char) (hd : pyIsDigit d = true)
    (hpre : ∀ x ∈ pre, pyIsDigit x = true) (hmid : ∀ x ∈ mid, pyIsDigit x = true) :
    tokenizeAux (fuel + 1) line c i (d :: (pre ++ '.' :: (mid ++ '.' :: post)))
      = .error (.invalidLexeme d line c i) := by
  have hsp : ¬(d = ' ') := digit_ne_space d hd
  have hal : ¬(pyIsAlpha d = true) := by simp [digit_not_alpha d hd]
  simp only [tokenizeAux, if_neg hsp, if_neg hal, hd, if_pos rfl, if_true,
    numRun_two_dots pre mid post hpre hmid]

/-- C9 witness: lexing from column 1, index 1 the remaining text
`"12.3.4"` reports the error at the run-start digit `1`, column 1,
index 1, not at the second dot (which sits four characters later). -/
theorem second_dot_error_reports_run_start_witness :
    tokenizeAux 8 0 1 1 ['1', '2', '.', '3', '.', '4']
      = .error (.invalidLexeme '1' 0 1 1) :=
  second_dot_error_reports_run_start 7 0 1 1 '1' ['2'] ['3'] ['4']
    (by decide) (by decide) (by decide)

/-- C10: in every successful scan each token's column is the absolute
character index at which the token begins — its lexeme occurs in the
source exactly at offset `column` — and the end-of-file token's column
equals the number of characters in the source. -/
theorem token_column_is_start_index (src : List Char) (ts : List Token)
    (h : tokenize src = .ok ts) :
    (∀ t ∈ ts, (src.drop t.column).take (consumedLen t) = t.lexeme.getD []) ∧
    (∀ t ∈ ts, t.token_type = TokenType.end_of_file → t.column = src.length) := by
  obtain ⟨hrec, ⟨ts₀, hts, heof⟩, _, _⟩ := tokenize_scanOk src ts h
  constructor
  · intro t ht
    simpa using (recon_pos ts 0 src hrec t ht).2
  · intro t ht htype
    rw [hts] at ht
    rcases List.mem_append.mp ht with h1 | h2
    · exact absurd htype (heof t h1)
    · simp at h2
      rw [h2]
      simp [eofToken]

/-- C10 witness: on the source `"f x"`, the identifier token for `x` has
column 2, where its lexeme sits in the source, and the end-of-file token
has column 3, the length of the source. -/
theorem token_column_is_start_index_witness :
    ((['f', ' ', 'x'] : List Char).drop 2).take
        (consumedLen ⟨.identifier, some ['x'], 0, 2, none⟩)
      = (⟨.identifier, some ['x'], 0, 2, none⟩ : Token).lexeme.getD [] ∧
    (eofToken 0 3).column = (['f', ' ', 'x'] : List Char).length := by
  have h := token_column_is_start_index ['f', ' ', 'x']
    [⟨.identifier, some ['f'], 0, 0, none⟩, ⟨.identifier, some ['x'], 0, 2, none⟩,
     eofToken 0 3] (by decide)
  exact ⟨h.1 (⟨.identifier, some ['x'], 0, 2, none⟩ : Token) (by simp),
    h.2 (eofToken 0 3) (by simp) rfl⟩

end Casbench
